import Mathlib

/-!
A shallow embedding of the gocron in-process job scheduler (gocron.go) and
proofs about its recurrence / next-run computation, dispatch selection and
job-collection operations.

Modelling conventions, chosen to mirror the Go source faithfully:

* Instants (`time.Time`) are integers counting seconds since the Unix epoch
  in the process-wide location `loc`; every day has 86400 seconds and
  `time.Date(y, m, d+k, hh, mm, 0, 0, loc)` normalises day arithmetic, so it
  is modelled as `mkDayTime (day + k) hh mm`.  The Unix epoch (day 0) was a
  Thursday, hence `weekday 0 = 4`.
* The "never run" sentinel `time.Unix(0, 0)` stored in a fresh job's
  `lastRun` is modelled as `Option.none`: in Go, a `time.Time` produced by
  `time.Now()` carries a monotonic-clock reading and so is never `==` to the
  sentinel value, which makes the sentinel a distinguished value rather than
  the instant 0.  `nextRun` is never compared against the sentinel, only
  used numerically, so it stays a plain integer (initially 0).
* `interval` is a `uint64`; the claims under study concern the conversion
  algorithm, so it is modelled as an unbounded `Nat` (exact arithmetic).
* The reflective payload machinery is external to the scheduler core: the
  only observations the core makes of it are the declared parameter count
  of the stored function (`reflect.Value.Type().NumIn()`) and the length of
  the bound argument list.  The maps `funcs` / `fparams` are therefore
  association lists from a function name to those two counts, and
  `getFunctionName` is modelled by passing the name itself.
* A Go runtime panic (out-of-range slice expression, reflection on a nil
  interface) is modelled by returning `Option.none` from the operation.
* `strings.Split` / `strconv.Atoi` work on the characters of the argument
  string; the time-of-day string handed to `At` is modelled as its list of
  characters so that parsing is kernel-computable.
-/

/-- Unit name constant from the source. -/
def UnitSeconds : String := "seconds"

/-- Unit name constant from the source. -/
def UnitMinutes : String := "minutes"

/-- Unit name constant from the source. -/
def UnitHours : String := "hours"

/-- Unit name constant from the source. -/
def UnitDays : String := "days"

/-- Unit name constant from the source. -/
def UnitWeeks : String := "weeks"

/-- Number of the day (since the Unix epoch) an instant falls in. -/
def dayOf (t : Int) : Int := t / 86400

/-- The instant at hour `h`, minute `m` of day `d`:
`time.Date(y, mo, dayWithNumber d, h, m, 0, 0, loc)`. -/
def mkDayTime (d h m : Int) : Int := d * 86400 + h * 3600 + m * 60

/-- `Weekday()` of an instant: 0 = Sunday .. 6 = Saturday; day 0 of the
epoch was a Thursday (= 4). -/
def weekday (t : Int) : Int := (dayOf t + 4) % 7

/-- One job: recurrence rule plus run-time bookkeeping (struct `Job`). -/
structure Job where
  interval : Nat
  jobFunc : String
  unit : String
  atTime : String
  lastRun : Option Int
  nextRun : Int
  period : Int
  startDay : Int
  funcs : List (String × Nat)
  fparams : List (String × Nat)
deriving DecidableEq

/-- `NewJob`: fresh job with the given interval; `lastRun` and `nextRun`
start at `time.Unix(0, 0)` (the sentinel, resp. instant 0), `period` 0,
`startDay` Sunday. -/
def NewJob (interval : Nat) : Job :=
  ⟨interval, "", "", "", none, 0, 0, 0, [], []⟩

/-- `shouldRun`: true when the current instant is strictly after `nextRun`
(`time.Now().After(j.nextRun)`). -/
def Job.shouldRun (now : Int) (j : Job) : Bool :=
  decide (j.nextRun < now)

/-- The `switch j.unit` of `scheduleNextRun` that derives the period, as a
count of seconds; the `default` case leaves `j.period` unchanged. -/
def periodSeconds (j : Job) : Int :=
  if j.unit = UnitMinutes then (j.interval : Int) * 60
  else if j.unit = UnitHours then (j.interval : Int) * 60 * 60
  else if j.unit = UnitDays then (j.interval : Int) * 60 * 60 * 24
  else if j.unit = UnitWeeks then (j.interval : Int) * 60 * 60 * 24 * 7
  else if j.unit = UnitSeconds then (j.interval : Int)
  else j.period

/-- `scheduleNextRun`: if `lastRun` is still the sentinel, back-date it
(weekly jobs: midnight of the most recent `startDay`; otherwise: `now`);
then `nextRun = lastRun + period`, deriving `period` first if it is 0. -/
def Job.scheduleNextRun (now : Int) (j : Job) : Job :=
  let j1 :=
    match j.lastRun with
    | none =>
      if j.unit = UnitWeeks then
        let i : Int := weekday now - j.startDay
        let i2 : Int := if i < 0 then 7 + i else i
        { j with lastRun := some (mkDayTime (dayOf now - i2) 0 0) }
      else
        { j with lastRun := some now }
    | some _ => j
  let lr := j1.lastRun.getD now
  if j1.period ≠ 0 then
    { j1 with nextRun := lr + j1.period }
  else
    let p := periodSeconds j1
    { j1 with period := p, nextRun := lr + p }

/-- Error message of `run` (`errors.New` in the source). -/
def errNotAdapted : String := "the number of param is not adapted"

/-- `run`: fire and immediately reschedule.  Returns `none` when the stored
function is absent (reflection on a nil interface panics); otherwise the
resulting job state together with the error of this single call, if any.
On an argument-count mismatch the job state is returned unchanged; on
success `lastRun` is set to the firing instant and the job rescheduled.
The asynchronous `go f.Call(in)` itself is external and unobserved. -/
def Job.run (now : Int) (j : Job) : Option (Job × Option String) :=
  match j.funcs.lookup j.jobFunc with
  | none => none
  | some numIn =>
    let nparams := (j.fparams.lookup j.jobFunc).getD 0
    if nparams ≠ numIn then some (j, some errNotAdapted)
    else some (({ j with lastRun := some now }).scheduleNextRun now, none)

/-- `run` as a state-transformer: the job state after one fire-and-reschedule
step (unchanged when the step errors or panics). -/
def Job.runStep (now : Int) (j : Job) : Job :=
  match j.run now with
  | some (j2, _) => j2
  | none => j

/-- Iterated fire-and-reschedule steps at the given sequence of instants. -/
def runSteps (nows : List Int) (j : Job) : Job :=
  nows.foldl (fun a t => a.runStep t) j

/-- `Do`: bind the invocable (identified by its name `fname`, declaring
`numIn` parameters) and its `nparams` bound arguments, then compute the
first `nextRun`.  The non-function panic path is outside the model: only
functions are representable here. -/
def Job.Do (now : Int) (fname : String) (numIn nparams : Nat) (j : Job) : Job :=
  ({ j with funcs := (fname, numIn) :: j.funcs,
            fparams := (fname, nparams) :: j.fparams,
            jobFunc := fname }).scheduleNextRun now

/-- Error value of `formatTime` (`errors.New("time format error")`). -/
def errTimeFormat : String := "time format error"

/-- Error standing for a failed `strconv.Atoi`. -/
def errAtoi : String := "Atoi error"

/-- `strings.Split` restricted to a single-character separator, on the
character list of the string. -/
def splitOnChar (sep : Char) : List Char → List (List Char)
  | [] => [[]]
  | c :: rest =>
    let r := splitOnChar sep rest
    if c = sep then [] :: r
    else
      match r with
      | [] => [[c]]
      | x :: xs => (c :: x) :: xs

/-- Digit value of a character, when it is a decimal digit. -/
def digitVal (c : Char) : Option Nat :=
  if '0' ≤ c ∧ c ≤ '9' then some (c.toNat - '0'.toNat) else none

/-- Parse a non-empty all-digit character list as a natural number. -/
def parseDigits : List Char → Option Nat
  | [] => none
  | cs => cs.foldl (fun acc c => acc.bind fun n => (digitVal c).map fun d => n * 10 + d) (some 0)

/-- `strconv.Atoi`: optional sign followed by at least one decimal digit
(64-bit overflow is out of scope: `formatTime` range-checks to [0,59]). -/
def atoi (s : List Char) : Option Int :=
  match s with
  | [] => none
  | '-' :: rest => (parseDigits rest).map fun n => -(n : Int)
  | '+' :: rest => (parseDigits rest).map fun n => (n : Int)
  | _ => (parseDigits s).map fun n => (n : Int)

/-- `formatTime`: split on the colon into exactly two fields, `Atoi` both,
and range-check hour into [0,23] and minute into [0,59]. -/
def formatTime (t : List Char) : Except String (Int × Int) :=
  let ts := splitOnChar ':' t
  if ts.length ≠ 2 then Except.error errTimeFormat
  else
    match atoi (ts.getD 0 []) with
    | none => Except.error errAtoi
    | some hour =>
      match atoi (ts.getD 1 []) with
      | none => Except.error errAtoi
      | some min =>
        if hour < 0 ∨ hour > 23 ∨ min < 0 ∨ min > 59 then Except.error errTimeFormat
        else Except.ok (hour, min)

/-- `At`: parse the "HH:MM" anchor (panicking — `none` — on a parse error),
build `mock`, today at that clock time, and anchor `lastRun` for daily and
weekly jobs exactly as the source does (`mock.Weekday()` is today's
weekday, since `mock` falls on today). -/
def Job.At (t : List Char) (now : Int) (j : Job) : Option Job :=
  match formatTime t with
  | Except.error _ => none
  | Except.ok (hour, min) =>
    let mock := mkDayTime (dayOf now) hour min
    some
      (if j.unit = UnitDays then
        if mock < now then { j with lastRun := some mock }
        else { j with lastRun := some (mkDayTime (dayOf now - 1) hour min) }
      else if j.unit = UnitWeeks then
        if j.startDay ≠ weekday now ∨ (mock < now ∧ j.startDay = weekday now) then
          let i : Int := weekday now - j.startDay
          let i2 : Int := if i < 0 then 7 + i else i
          { j with lastRun := some (mkDayTime (dayOf now - i2) hour min) }
        else { j with lastRun := some (mkDayTime (dayOf now - 7) hour min) }
      else j)

/-- Scheduler: the list of jobs (`[]*Job`, here by value). -/
structure Scheduler where
  jobs : List Job
deriving DecidableEq

/-- The sort order of `sort.Sort(s)`: ascending `nextRun`
(`Less(i, j) = s.jobs[j].nextRun.After(s.jobs[i].nextRun)`). -/
def nextRunLE (a b : Job) : Prop := a.nextRun ≤ b.nextRun

instance : DecidableRel nextRunLE := fun a b => Int.decLe a.nextRun b.nextRun

instance : IsTotal Job nextRunLE := ⟨fun a b => Int.le_total a.nextRun b.nextRun⟩

instance : IsTrans Job nextRunLE := ⟨fun _ _ _ hab hbc => Int.le_trans hab hbc⟩

/-- `getRunnableJobs`: sort ascending by `nextRun` (`sort.Sort` is modelled
by insertion sort — any sorted permutation), then collect jobs from the
front while they are due, breaking at the first job that is not. -/
def Scheduler.getRunnableJobs (now : Int) (s : Scheduler) : List Job :=
  (List.insertionSort nextRunLE s.jobs).takeWhile (fun j => j.shouldRun now)

/-- `Remove`: scan for the first job whose `jobFunc` matches the payload
name (`getFunctionName(j)` is modelled by the name itself); the loop
variable `i` ends at the match index, at `len-1` when nothing matches a
non-empty collection, and at its zero value on an empty one.  The slice
expression `s.jobs[i+1:]` panics (`none`) when `i + 1 > len`. -/
def Scheduler.Remove (fname : String) (s : Scheduler) : Option Scheduler :=
  let i :=
    match s.jobs.findIdx? (fun job => job.jobFunc == fname) with
    | some k => k
    | none => s.jobs.length - 1
  if i + 1 ≤ s.jobs.length then
    some ⟨s.jobs.take i ++ s.jobs.drop (i + 1)⟩
  else none

/-- The invariant "`nextRun` is at or after `lastRun`" (trivially true while
`lastRun` is still the never-run sentinel). -/
def lastLeNext (j : Job) : Prop :=
  ∀ lr, j.lastRun = some lr → lr ≤ j.nextRun

/-- The characters of the anchor string "10:30". -/
def tenThirty : List Char := ['1', '0', ':', '3', '0']

/-- A function name used in concrete instantiations. -/
def nameF : String := "f"

/-- A second, distinct function name used in concrete instantiations. -/
def nameG : String := "g"

/-- Concrete daily job: `NewJob(1).Days()`. -/
def jD : Job := { NewJob 1 with unit := UnitDays }

/-- Concrete armed job: every 2 seconds, payload `nameF` with one declared
parameter and one bound argument. -/
def jArmed : Job :=
  { NewJob 2 with unit := UnitSeconds, jobFunc := nameF,
                  funcs := [(nameF, 1)], fparams := [(nameF, 1)] }

/-- The state of `jArmed` after a successful fire at instant 100. -/
def jArmedFired : Job :=
  { jArmed with lastRun := some 100, period := 2, nextRun := 102 }

/-- Concrete armed job whose bound argument count (1) differs from the
declared parameter count (2) of its payload. -/
def jMismatch : Job :=
  { NewJob 1 with unit := UnitSeconds, jobFunc := nameF,
                  funcs := [(nameF, 2)], fparams := [(nameF, 1)] }

/-- Concrete weekly job anchored on Monday: `NewJob(1).Monday()`. -/
def jMonday : Job := { NewJob 1 with unit := UnitWeeks, startDay := 1 }

/-- Concrete armed job in the scheduler used for removal instantiations. -/
def jobNamedF : Job :=
  { NewJob 1 with unit := UnitSeconds, jobFunc := nameF,
                  funcs := [(nameF, 0)], fparams := [(nameF, 0)] }

/-- The state of `jD` after `At("10:30")` at instant 43200 (noon of epoch
day 0: the anchor 10:30 = 37800 has already passed). -/
def jDAnchored : Job := { jD with lastRun := some 37800 }

/-! ## Helper lemmas -/

/-- `periodSeconds` does not read `lastRun`. -/
theorem periodSeconds_set_lastRun (j : Job) (x : Option Int) :
    periodSeconds { j with lastRun := x } = periodSeconds j := rfl

/-- `periodSeconds` only reads `unit`, `interval` and `period`. -/
theorem periodSeconds_congr {a b : Job} (hu : a.unit = b.unit)
    (hi : a.interval = b.interval) (hp : a.period = b.period) :
    periodSeconds a = periodSeconds b := by
  simp only [periodSeconds, hu, hi, hp]

/-- Field bookkeeping of `scheduleNextRun`: `unit`, `interval`, `jobFunc`,
`funcs` and `fparams` are untouched; the resulting `period` is the old one
when non-zero and otherwise the unit conversion; `lastRun` is some instant
`lr` with `nextRun = lr + period`. -/
theorem scheduleNextRun_fields (j : Job) (now : Int) :
    (j.scheduleNextRun now).unit = j.unit ∧
    (j.scheduleNextRun now).interval = j.interval ∧
    (j.scheduleNextRun now).jobFunc = j.jobFunc ∧
    (j.scheduleNextRun now).funcs = j.funcs ∧
    (j.scheduleNextRun now).fparams = j.fparams ∧
    (j.scheduleNextRun now).period =
      (if j.period ≠ 0 then j.period else periodSeconds j) ∧
    ∃ lr, (j.scheduleNextRun now).lastRun = some lr ∧
      (j.scheduleNextRun now).nextRun =
        lr + (if j.period ≠ 0 then j.period else periodSeconds j) := by
  rcases hl : j.lastRun with _ | lr <;>
    simp only [Job.scheduleNextRun, hl] <;>
    split <;> simp_all <;> split <;> simp_all <;>
    exact periodSeconds_congr (by simp_all) (by simp_all) (by simp_all)

/-- On a list sorted by `r`, a scan that stops at the first element failing
a predicate that is downward-closed along `r` collects exactly the elements
satisfying the predicate. -/
theorem takeWhile_eq_filter_of_sorted {α : Type} {r : α → α → Prop} {p : α → Bool}
    (hmono : ∀ a b, r a b → p b = true → p a = true) :
    ∀ {l : List α}, l.Sorted r → l.takeWhile p = l.filter p := by
  intro l
  induction l with
  | nil => intro _; rfl
  | cons a l ih =>
    intro hs
    rcases List.sorted_cons.mp hs with ⟨ha, hl⟩
    by_cases hpa : p a = true
    · simp [List.takeWhile_cons, List.filter_cons, hpa, ih hl]
    · have hnil : l.filter p = [] := by
        refine List.filter_eq_nil_iff.mpr ?_
        intro b hb hpb
        exact hpa (hmono a b (ha b hb) hpb)
      simp [List.takeWhile_cons, List.filter_cons, hpa, hnil]

/-- The collected scan is an initial segment of the scanned list. -/
theorem takeWhile_eq_take {α : Type} (p : α → Bool) :
    ∀ (l : List α), l.takeWhile p = l.take (l.takeWhile p).length := by
  intro l
  induction l with
  | nil => rfl
  | cons a l ih =>
    by_cases hpa : p a = true
    · simp [List.takeWhile_cons, hpa, List.take_succ_cons, ← ih]
    · simp [List.takeWhile_cons, hpa]

/-- A nonnegative cached period stays nonnegative through the unit
conversion switch. -/
theorem periodSeconds_nonneg {j : Job} (hp : 0 ≤ j.period) : 0 ≤ periodSeconds j := by
  unfold periodSeconds
  repeat' split
  all_goals positivity

/-- Once the cached period is consistent (non-zero, or zero with the unit
conversion also yielding zero), `scheduleNextRun` never changes it. -/
theorem scheduleNextRun_period_stable (j : Job) (now : Int)
    (h : j.period ≠ 0 ∨ periodSeconds j = 0) :
    (j.scheduleNextRun now).period = j.period := by
  obtain ⟨-, -, -, -, -, hpn, -⟩ := scheduleNextRun_fields j now
  rw [hpn]
  rcases h with h | h
  · rw [if_pos h]
  · by_cases hper : j.period = 0
    · rw [if_neg (not_not_intro hper), h, hper]
    · rw [if_pos hper]

/-- One fire-and-reschedule step preserves `period` (under the consistency
of `scheduleNextRun_period_stable`), `unit` and `interval`. -/
theorem runStep_fields (j : Job) (t : Int)
    (h : j.period ≠ 0 ∨ periodSeconds j = 0) :
    (j.runStep t).period = j.period ∧ (j.runStep t).unit = j.unit ∧
    (j.runStep t).interval = j.interval := by
  rcases hl : j.funcs.lookup j.jobFunc with _ | numIn
  · have e : j.runStep t = j := by
      simp only [Job.runStep, Job.run, hl]
    rw [e]
    exact ⟨rfl, rfl, rfl⟩
  · by_cases hne : (j.fparams.lookup j.jobFunc).getD 0 ≠ numIn
    · have e : j.runStep t = j := by
        simp only [Job.runStep, Job.run, hl]
        rw [if_pos hne]
      rw [e]
      exact ⟨rfl, rfl, rfl⟩
    · have e : j.runStep t = ({ j with lastRun := some t }).scheduleNextRun t := by
        simp only [Job.runStep, Job.run, hl]
        rw [if_neg hne]
      obtain ⟨hu, hi, -, -, -, -, -⟩ :=
        scheduleNextRun_fields { j with lastRun := some t } t
      have hp : (({ j with lastRun := some t }).scheduleNextRun t).period = j.period :=
        scheduleNextRun_period_stable { j with lastRun := some t } t h
      rw [e]
      exact ⟨hp, hu, hi⟩

/-- Iterated fire-and-reschedule steps preserve `period`, `unit` and
`interval` under the same consistency condition. -/
theorem runSteps_fields (nows : List Int) :
    ∀ j : Job, (j.period ≠ 0 ∨ periodSeconds j = 0) →
      (runSteps nows j).period = j.period ∧ (runSteps nows j).unit = j.unit ∧
      (runSteps nows j).interval = j.interval := by
  induction nows with
  | nil => intro j _; exact ⟨rfl, rfl, rfl⟩
  | cons t ts ih =>
    intro j h
    obtain ⟨hp, hu, hi⟩ := runStep_fields j t h
    have hps : periodSeconds (j.runStep t) = periodSeconds j :=
      periodSeconds_congr hu hi hp
    have h2 : (j.runStep t).period ≠ 0 ∨ periodSeconds (j.runStep t) = 0 := by
      rcases h with h | h
      · exact Or.inl (hp ▸ h)
      · exact Or.inr (hps.trans h)
    obtain ⟨hp2, hu2, hi2⟩ := ih (j.runStep t) h2
    have e : runSteps (t :: ts) j = runSteps ts (j.runStep t) := rfl
    rw [e]
    exact ⟨hp2.trans hp, hu2.trans hu, hi2.trans hi⟩

/-- When `lastRun` is already a real instant, `scheduleNextRun` keeps it. -/
theorem scheduleNextRun_lastRun_of_some {j : Job} (now x : Int)
    (h : j.lastRun = some x) : (j.scheduleNextRun now).lastRun = some x := by
  simp only [Job.scheduleNextRun, h]
  split <;> simp [h]

/-! ## Claim theorems -/

/-- Claim C10: `Remove` on a scheduler with an empty job collection is not a
no-op: the loop index stays 0 and the slice `s.jobs[1:]` is out of range, a
runtime panic (`none`), so the operation is not total on the empty state. -/
theorem remove_empty_panics (s : Scheduler) (fname : String) (h : s.jobs = []) :
    s.Remove fname = none ∧ s.Remove fname ≠ some s := by
  rcases s with ⟨jobs⟩
  simp only at h
  subst h
  exact ⟨rfl, by simp [Scheduler.Remove]⟩

/-- Witness for C10 at the empty scheduler and payload name `nameG`. -/
theorem remove_empty_panics_witness :
    (⟨[]⟩ : Scheduler).jobs = [] ∧
    (Scheduler.Remove nameG ⟨[]⟩ = none ∧ Scheduler.Remove nameG ⟨[]⟩ ≠ some ⟨[]⟩) :=
  ⟨rfl, remove_empty_panics ⟨[]⟩ nameG rfl⟩

/-- Claim C1 (evaluation at the failing input): on the one-job scheduler
holding the job named `nameF`, removing the absent payload identity `nameG`
does not leave the collection unchanged — it deletes the job named `nameF`,
leaving the empty collection. -/
theorem remove_absent_deletes_last :
    jobNamedF.jobFunc ≠ nameG ∧
    Scheduler.Remove nameG ⟨[jobNamedF]⟩ = some ⟨[]⟩ ∧
    (⟨[]⟩ : Scheduler) ≠ (⟨[jobNamedF]⟩ : Scheduler) :=
  ⟨by decide, by decide, by decide⟩

/-- Claim C5: a successful fire-and-reschedule step records the firing
instant in `lastRun` and leaves `nextRun` equal to `lastRun` plus the job's
(resulting) period. -/
theorem run_success_last_next (j : Job) (now : Int) (j2 : Job)
    (h : j.run now = some (j2, none)) :
    j2.lastRun = some now ∧ j2.nextRun = now + j2.period := by
  rcases hl : j.funcs.lookup j.jobFunc with _ | numIn
  · simp only [Job.run, hl] at h
    exact Option.noConfusion h
  · by_cases hne : (j.fparams.lookup j.jobFunc).getD 0 ≠ numIn
    · simp only [Job.run, hl] at h
      rw [if_pos hne] at h
      simp at h
    · simp only [Job.run, hl] at h
      rw [if_neg hne] at h
      simp only [Option.some.injEq, Prod.mk.injEq, and_true] at h
      subst h
      obtain ⟨-, -, -, -, -, hpn, lr, hlr, hnr⟩ :=
        scheduleNextRun_fields { j with lastRun := some now } now
      have hlast :
          (({ j with lastRun := some now }).scheduleNextRun now).lastRun = some now :=
        scheduleNextRun_lastRun_of_some now now rfl
      have hlr2 : lr = now := by
        rw [hlast] at hlr
        exact (Option.some.injEq _ _ ▸ hlr).symm
      refine ⟨hlast, ?_⟩
      rw [hnr, hlr2, hpn]

/-- Witness for C5: firing `jArmed` at instant 100 succeeds and yields
`jArmedFired`, whose `nextRun` is the firing instant plus its period. -/
theorem run_success_last_next_witness :
    jArmed.run 100 = some (jArmedFired, none) ∧
    (jArmedFired.lastRun = some 100 ∧ jArmedFired.nextRun = 100 + jArmedFired.period) :=
  ⟨by decide, run_success_last_next jArmed 100 jArmedFired (by decide)⟩

/-- Claim C9: for an armed job (its payload is stored with `numIn` declared
parameters), `run` errors exactly when the bound argument count differs
from `numIn`; on that error the job state is returned unchanged (no
reschedule), and otherwise the step fires and reschedules. -/
theorem run_error_iff (j : Job) (now : Int) (numIn : Nat)
    (h : j.funcs.lookup j.jobFunc = some numIn) :
    ((j.fparams.lookup j.jobFunc).getD 0 ≠ numIn →
      j.run now = some (j, some errNotAdapted)) ∧
    ((j.fparams.lookup j.jobFunc).getD 0 = numIn →
      j.run now = some (({ j with lastRun := some now }).scheduleNextRun now, none)) := by
  constructor
  · intro hne
    simp only [Job.run, h]
    rw [if_pos hne]
  · intro heq
    simp only [Job.run, h]
    rw [if_neg (fun hc => hc heq)]

/-- Witness for C9 at `jMismatch` (payload declares 2 parameters, 1 bound
argument) and instant 100. -/
theorem run_error_iff_witness :
    jMismatch.funcs.lookup jMismatch.jobFunc = some 2 ∧
    (((jMismatch.fparams.lookup jMismatch.jobFunc).getD 0 ≠ 2 →
       jMismatch.run 100 = some (jMismatch, some errNotAdapted)) ∧
     ((jMismatch.fparams.lookup jMismatch.jobFunc).getD 0 = 2 →
       jMismatch.run 100 =
         some (({ jMismatch with lastRun := some 100 }).scheduleNextRun 100, none))) :=
  ⟨by decide, run_error_iff jMismatch 100 2 (by decide)⟩

/-- Claim C4: first computation of the cached period converts the interval
to seconds with the fixed multipliers (1, 60, 3600, 86400, 604800), and the
period then never changes across any number of subsequent fire-and-
reschedule steps. -/
theorem period_conversion_and_stability (j : Job) (now : Int) (nows : List Int)
    (hp : j.period = 0) :
    ((j.unit = UnitSeconds → (j.scheduleNextRun now).period = (j.interval : Int)) ∧
     (j.unit = UnitMinutes → (j.scheduleNextRun now).period = (j.interval : Int) * 60) ∧
     (j.unit = UnitHours → (j.scheduleNextRun now).period = (j.interval : Int) * 3600) ∧
     (j.unit = UnitDays → (j.scheduleNextRun now).period = (j.interval : Int) * 86400) ∧
     (j.unit = UnitWeeks → (j.scheduleNextRun now).period = (j.interval : Int) * 604800)) ∧
    (runSteps nows (j.scheduleNextRun now)).period = (j.scheduleNextRun now).period := by
  obtain ⟨hu1, hi1, -, -, -, hpn, -⟩ := scheduleNextRun_fields j now
  have hP : (j.scheduleNextRun now).period = periodSeconds j := by
    rw [hpn, if_neg (not_not_intro hp)]
  constructor
  · refine ⟨fun hu => ?_, fun hu => ?_, fun hu => ?_, fun hu => ?_, fun hu => ?_⟩ <;>
      · rw [hP]
        simp [periodSeconds, hu, UnitSeconds, UnitMinutes, UnitHours, UnitDays,
          UnitWeeks]
        try ring
  · have hinv : (j.scheduleNextRun now).period ≠ 0 ∨
        periodSeconds (j.scheduleNextRun now) = 0 := by
      by_cases h0 : periodSeconds j = 0
      · refine Or.inr ?_
        have : (j.scheduleNextRun now).period = j.period := by
          rw [hP, h0, hp]
        rw [periodSeconds_congr hu1 hi1 this]
        exact h0
      · exact Or.inl (by rw [hP]; exact h0)
    exact (runSteps_fields nows (j.scheduleNextRun now) hinv).1

/-- Witness for C4 at `jArmed` (unit seconds, interval 2, fresh period 0),
scheduling at instant 50 and firing at instants 100 and 200. -/
theorem period_conversion_and_stability_witness :
    jArmed.period = 0 ∧
    (((jArmed.unit = UnitSeconds →
        (jArmed.scheduleNextRun 50).period = (jArmed.interval : Int)) ∧
      (jArmed.unit = UnitMinutes →
        (jArmed.scheduleNextRun 50).period = (jArmed.interval : Int) * 60) ∧
      (jArmed.unit = UnitHours →
        (jArmed.scheduleNextRun 50).period = (jArmed.interval : Int) * 3600) ∧
      (jArmed.unit = UnitDays →
        (jArmed.scheduleNextRun 50).period = (jArmed.interval : Int) * 86400) ∧
      (jArmed.unit = UnitWeeks →
        (jArmed.scheduleNextRun 50).period = (jArmed.interval : Int) * 604800)) ∧
     (runSteps [100, 200] (jArmed.scheduleNextRun 50)).period =
       (jArmed.scheduleNextRun 50).period) :=
  ⟨rfl, period_conversion_and_stability jArmed 50 [100, 200] rfl⟩

/-- Claim C7: on a job whose `lastRun` is still the never-run sentinel,
`scheduleNextRun` back-dates a weekly job's `lastRun` to midnight of the
most recent occurrence of its anchor weekday — `(todayWeekday - startDay)
mod 7` days before today, the negative difference corrected by adding 7 —
and sets `lastRun = now` for every other unit. -/
theorem sentinel_backdate (j : Job) (now : Int) (hlr : j.lastRun = none)
    (h0 : 0 ≤ j.startDay) (h6 : j.startDay ≤ 6) :
    (j.unit = UnitWeeks →
      (j.scheduleNextRun now).lastRun =
        some (mkDayTime (dayOf now - (weekday now - j.startDay) % 7) 0 0)) ∧
    (j.unit ≠ UnitWeeks → (j.scheduleNextRun now).lastRun = some now) := by
  constructor
  · intro hu
    have hw0 : 0 ≤ weekday now := Int.emod_nonneg _ (by norm_num)
    have hw6 : weekday now < 7 := Int.emod_lt_of_pos _ (by norm_num)
    simp only [Job.scheduleNextRun, hlr, hu]
    split
    · split <;>
        · simp only [mkDayTime]
          split <;>
            · dsimp only
              simp only [Option.some.injEq]
              omega
    · exact absurd trivial (by assumption)
  · intro hu
    simp only [Job.scheduleNextRun, hlr]
    rw [if_neg hu]
    split <;> simp

/-- Witness for C7 at the weekly job `jMonday` (anchor Monday, sentinel
`lastRun`) and instant 400000 (a Monday: day 4 of the epoch). -/
theorem sentinel_backdate_witness :
    jMonday.lastRun = none ∧ (0 : Int) ≤ jMonday.startDay ∧ jMonday.startDay ≤ 6 ∧
    ((jMonday.unit = UnitWeeks →
       (jMonday.scheduleNextRun 400000).lastRun =
         some (mkDayTime (dayOf 400000 - (weekday 400000 - jMonday.startDay) % 7) 0 0)) ∧
     (jMonday.unit ≠ UnitWeeks → (jMonday.scheduleNextRun 400000).lastRun = some 400000)) :=
  ⟨rfl, by decide, by decide, sentinel_backdate jMonday 400000 rfl (by decide) (by decide)⟩

/-- For a daily job with interval 1 and no cached period whose `lastRun` is
a real instant `v`, rescheduling keeps `lastRun = v` and lands `nextRun`
one day (86400 s) after it. -/
theorem scheduleNextRun_daily_of_some (j : Job) (now v : Int) (hu : j.unit = UnitDays)
    (hi : j.interval = 1) (hp : j.period = 0) (hl : j.lastRun = some v) :
    (j.scheduleNextRun now).lastRun = some v ∧
    (j.scheduleNextRun now).nextRun = v + 86400 := by
  obtain ⟨-, -, -, -, -, -, lr, hlr, hnr⟩ := scheduleNextRun_fields j now
  have h1 : (j.scheduleNextRun now).lastRun = some v :=
    scheduleNextRun_lastRun_of_some now v hl
  have hlr2 : lr = v := by
    rw [h1] at hlr
    exact (Option.some.injEq _ _ ▸ hlr).symm
  have hper : periodSeconds j = 86400 := by
    simp [periodSeconds, hu, hi, UnitMinutes, UnitHours, UnitDays]
  refine ⟨h1, ?_⟩
  rw [hnr, hlr2, if_neg (not_not_intro hp), hper]

/-- Claim C2 (counterexample to the claim as stated): at instant 43200
(noon of epoch day 0) the daily anchor 10:30 — instant 37800 — has already
passed, yet `At("10:30")` sets `lastRun` to *today* at 10:30, not to
yesterday at 10:30 as the claim predicts for the passed case. -/
theorem at_days_anchor_cex :
    mkDayTime (dayOf 43200) 10 30 < 43200 ∧
    (jD.At tenThirty 43200).map (fun x => x.lastRun) =
      some (some (mkDayTime (dayOf 43200) 10 30)) ∧
    (jD.At tenThirty 43200).map (fun x => x.lastRun) ≠
      some (some (mkDayTime (dayOf 43200 - 1) 10 30)) :=
  ⟨by decide, by decide, by decide⟩

/-- Claim C2 (amended): for a daily job, `At` with a valid "HH:MM" anchors
`lastRun` to *today* at that clock time when that time has already passed
relative to now, and to *yesterday* at that clock time when it is still in
the future. -/
theorem at_days_anchor (j : Job) (now : Int) (t : List Char) (hour min : Int)
    (hfmt : formatTime t = Except.ok (hour, min)) (hu : j.unit = UnitDays) :
    (mkDayTime (dayOf now) hour min < now →
      (j.At t now).map (fun x => x.lastRun) =
        some (some (mkDayTime (dayOf now) hour min))) ∧
    (now < mkDayTime (dayOf now) hour min →
      (j.At t now).map (fun x => x.lastRun) =
        some (some (mkDayTime (dayOf now - 1) hour min))) := by
  constructor
  · intro h
    simp [Job.At, hfmt, hu, h]
  · intro h
    have hnotlt : ¬ mkDayTime (dayOf now) hour min < now := by omega
    simp [Job.At, hfmt, hu, hnotlt]

/-- Witness for C2 (amended) at `jD`, instant 43200, anchor "10:30". -/
theorem at_days_anchor_witness :
    formatTime tenThirty = Except.ok (10, 30) ∧ jD.unit = UnitDays ∧
    ((mkDayTime (dayOf 43200) 10 30 < 43200 →
       (jD.At tenThirty 43200).map (fun x => x.lastRun) =
         some (some (mkDayTime (dayOf 43200) 10 30))) ∧
     (43200 < mkDayTime (dayOf 43200) 10 30 →
       (jD.At tenThirty 43200).map (fun x => x.lastRun) =
         some (some (mkDayTime (dayOf 43200 - 1) 10 30)))) :=
  ⟨rfl, rfl, at_days_anchor jD 43200 tenThirty 10 30 rfl rfl⟩

/-- Claim C3: a fresh daily job (interval 1, no cached period) configured
with `At("10:30")` before 10:30 today gets `lastRun` = yesterday 10:30 and
a first `nextRun` = today 10:30; configured after 10:30 today it gets
`lastRun` = today 10:30 and a first `nextRun` = tomorrow 10:30. -/
theorem at_ten_thirty_first_next (j : Job) (now : Int) (hu : j.unit = UnitDays)
    (hi : j.interval = 1) (hp : j.period = 0) :
    (now < mkDayTime (dayOf now) 10 30 →
      (j.At tenThirty now).map
          (fun x => ((x.scheduleNextRun now).lastRun, (x.scheduleNextRun now).nextRun)) =
        some (some (mkDayTime (dayOf now - 1) 10 30), mkDayTime (dayOf now) 10 30)) ∧
    (mkDayTime (dayOf now) 10 30 < now →
      (j.At tenThirty now).map
          (fun x => ((x.scheduleNextRun now).lastRun, (x.scheduleNextRun now).nextRun)) =
        some (some (mkDayTime (dayOf now) 10 30), mkDayTime (dayOf now + 1) 10 30)) := by
  have hfmt : formatTime tenThirty = Except.ok (10, 30) := rfl
  constructor
  · intro h
    have hnotlt : ¬ mkDayTime (dayOf now) 10 30 < now := by omega
    simp [Job.At, hfmt, hu, hnotlt]
    refine ⟨(scheduleNextRun_daily_of_some
        { j with unit := UnitDays, lastRun := some (mkDayTime (dayOf now - 1) 10 30) }
        now (mkDayTime (dayOf now - 1) 10 30) rfl hi hp rfl).1, ?_⟩
    rw [(scheduleNextRun_daily_of_some
        { j with unit := UnitDays, lastRun := some (mkDayTime (dayOf now - 1) 10 30) }
        now (mkDayTime (dayOf now - 1) 10 30) rfl hi hp rfl).2]
    simp only [mkDayTime]
    omega
  · intro h
    simp [Job.At, hfmt, hu, h]
    refine ⟨(scheduleNextRun_daily_of_some
        { j with unit := UnitDays, lastRun := some (mkDayTime (dayOf now) 10 30) }
        now (mkDayTime (dayOf now) 10 30) rfl hi hp rfl).1, ?_⟩
    rw [(scheduleNextRun_daily_of_some
        { j with unit := UnitDays, lastRun := some (mkDayTime (dayOf now) 10 30) }
        now (mkDayTime (dayOf now) 10 30) rfl hi hp rfl).2]
    simp only [mkDayTime]
    omega

/-- Witness for C3 at `jD` and instant 30000 (before 10:30 = 37800 of epoch
day 0). -/
theorem at_ten_thirty_first_next_witness :
    jD.unit = UnitDays ∧ jD.interval = 1 ∧ jD.period = 0 ∧
    ((30000 < mkDayTime (dayOf 30000) 10 30 →
       (jD.At tenThirty 30000).map
           (fun x => ((x.scheduleNextRun 30000).lastRun, (x.scheduleNextRun 30000).nextRun)) =
         some (some (mkDayTime (dayOf 30000 - 1) 10 30), mkDayTime (dayOf 30000) 10 30)) ∧
     (mkDayTime (dayOf 30000) 10 30 < 30000 →
       (jD.At tenThirty 30000).map
           (fun x => ((x.scheduleNextRun 30000).lastRun, (x.scheduleNextRun 30000).nextRun)) =
         some (some (mkDayTime (dayOf 30000) 10 30), mkDayTime (dayOf 30000 + 1) 10 30))) :=
  ⟨rfl, rfl, rfl, at_ten_thirty_first_next jD 30000 rfl rfl rfl⟩

/-- With a nonnegative cached period, rescheduling establishes the
`lastRun ≤ nextRun` invariant. -/
theorem scheduleNextRun_lastLeNext (j : Job) (now : Int) (hp : 0 ≤ j.period) :
    lastLeNext (j.scheduleNextRun now) := by
  obtain ⟨-, -, -, -, -, -, lr, hlr, hnr⟩ := scheduleNextRun_fields j now
  intro x hx
  rw [hlr] at hx
  have hx2 : lr = x := by
    injection hx
  have hpos : 0 ≤ (if j.period ≠ 0 then j.period else periodSeconds j) := by
    split
    · exact hp
    · exact periodSeconds_nonneg hp
  rw [hnr]
  omega

/-- Claim C8 (counterexample to the claim as stated): `At` is among the
listed operations, but after `At("10:30")` at instant 43200 on the fresh
daily job `jD` (whose `nextRun` is still 0), `lastRun` is 37800 while
`nextRun` remains 0, so `nextRun ≥ lastRun` fails right after `At`. -/
theorem at_breaks_next_ge_last_cex :
    jD.At tenThirty 43200 = some jDAnchored ∧
    jDAnchored.lastRun = some 37800 ∧ jDAnchored.nextRun = 0 ∧
    ¬ ((37800 : Int) ≤ jDAnchored.nextRun) :=
  ⟨by decide, by decide, by decide, by decide⟩

/-- Claim C8 (amended): for every job whose cached period is nonnegative
(true of every job the code builds), `nextRun ≥ lastRun` holds after
`scheduleNextRun` and after `Do`, and after a `run` step that fires; an
erroring `run` step leaves the job unchanged.  `At` alone does not
recompute `nextRun` and is excluded: the invariant holds only once the job
is armed. -/
theorem next_ge_last_amended (j : Job) (now : Int) (fname : String)
    (numIn nparams : Nat) (hp : 0 ≤ j.period) :
    lastLeNext (j.scheduleNextRun now) ∧
    lastLeNext (j.Do now fname numIn nparams) ∧
    ∀ j2 e, j.run now = some (j2, e) →
      (e = none → lastLeNext j2) ∧ (e ≠ none → j2 = j) := by
  refine ⟨scheduleNextRun_lastLeNext j now hp, ?_, ?_⟩
  · exact scheduleNextRun_lastLeNext
      { j with funcs := (fname, numIn) :: j.funcs,
               fparams := (fname, nparams) :: j.fparams,
               jobFunc := fname } now hp
  · intro j2 e h
    rcases hl : j.funcs.lookup j.jobFunc with _ | numIn0
    · simp only [Job.run, hl] at h
      exact Option.noConfusion h
    · by_cases hne : (j.fparams.lookup j.jobFunc).getD 0 ≠ numIn0
      · simp only [Job.run, hl] at h
        rw [if_pos hne] at h
        simp only [Option.some.injEq, Prod.mk.injEq] at h
        obtain ⟨rfl, rfl⟩ := h
        exact ⟨fun hc => Option.noConfusion hc, fun _ => rfl⟩
      · simp only [Job.run, hl] at h
        rw [if_neg hne] at h
        simp only [Option.some.injEq, Prod.mk.injEq] at h
        obtain ⟨rfl, rfl⟩ := h
        refine ⟨fun _ => ?_, fun hc => absurd rfl hc⟩
        exact scheduleNextRun_lastLeNext { j with lastRun := some now } now hp

/-- Witness for C8 (amended) at `jD` (period 0), instant 43200, payload
`nameF` with no parameters. -/
theorem next_ge_last_amended_witness :
    (0 : Int) ≤ jD.period ∧
    (lastLeNext (jD.scheduleNextRun 43200) ∧
     lastLeNext (jD.Do 43200 nameF 0 0) ∧
     ∀ j2 e, jD.run 43200 = some (j2, e) →
       (e = none → lastLeNext j2) ∧ (e ≠ none → j2 = jD)) :=
  ⟨by decide, next_ge_last_amended jD 43200 nameF 0 0 (by decide)⟩

/-- Claim C6: `getRunnableJobs` returns exactly the jobs whose `nextRun` is
strictly before `now` (as a multiset, and as a membership criterion),
ordered ascending by `nextRun`, and that result is an initial segment of
the sorted job list — the scan stops at the first job that is not yet
due. -/
theorem getRunnableJobs_spec (s : Scheduler) (now : Int) :
    (s.getRunnableJobs now).Perm (s.jobs.filter (fun j => j.shouldRun now)) ∧
    List.Sorted nextRunLE (s.getRunnableJobs now) ∧
    s.getRunnableJobs now =
      (List.insertionSort nextRunLE s.jobs).take (s.getRunnableJobs now).length ∧
    ∀ jb, jb ∈ s.getRunnableJobs now ↔ jb ∈ s.jobs ∧ jb.nextRun < now := by
  have hmono : ∀ a b : Job, nextRunLE a b →
      (fun j => j.shouldRun now) b = true → (fun j => j.shouldRun now) a = true := by
    intro a b hab hb
    simp only [Job.shouldRun, decide_eq_true_eq] at hb ⊢
    exact lt_of_le_of_lt hab hb
  have hsorted : List.Sorted nextRunLE (List.insertionSort nextRunLE s.jobs) :=
    List.sorted_insertionSort nextRunLE s.jobs
  have htf : s.getRunnableJobs now =
      (List.insertionSort nextRunLE s.jobs).filter (fun j => j.shouldRun now) :=
    takeWhile_eq_filter_of_sorted hmono hsorted
  have hperm : (s.getRunnableJobs now).Perm (s.jobs.filter (fun j => j.shouldRun now)) := by
    rw [htf]
    exact (List.perm_insertionSort nextRunLE s.jobs).filter _
  refine ⟨hperm, ?_, ?_, ?_⟩
  · exact List.Pairwise.sublist
      (@List.takeWhile_sublist Job (List.insertionSort nextRunLE s.jobs)
        (fun j => j.shouldRun now)) hsorted
  · have h2 := takeWhile_eq_take (fun j => j.shouldRun now)
      (List.insertionSort nextRunLE s.jobs)
    exact h2
  · intro jb
    rw [hperm.mem_iff, List.mem_filter]
    simp [Job.shouldRun]
